import Mathlib

/-!
Verification of the rendering/caching/selection core of the FreePDF viewer.

The definitions below are shallow embeddings of the Python sources:
* `src/utils/constants.py`   — tuning constants,
* `src/core/pdf_document.py` — `PageCache` (ordered-dict LRU store),
* `src/ui/pdf_widget.py`     — `SmoothPDFView` (render dispatch, visible-page
  computation, zoom handling, preview application),
* `src/core/render_thread.py` — `PageRenderThread` (worker pipeline),
* `src/core/text_selection.py` — `TextSelection` (drag selection and
  serialization).

Python dicts / `OrderedDict`s are modelled as association lists whose order is
the recency order (head = least recently touched, tail = freshest), Qt
geometry as integer rectangles with Qt6's `x2 = x + w - 1` convention, and
floating point quantities as rationals (the operations involved — min, max,
abs, comparison, field arithmetic — are exact).
-/

/-! ### Constants (src/utils/constants.py) -/

def MAX_CACHE_SIZE : Nat := 6

def VIEWPORT_BUFFER : ℚ := 50

def MIN_ZOOM : ℚ := 3 / 10

def MAX_ZOOM : ℚ := 5

def DEFAULT_DPI : ℚ := 200

def HIGH_QUALITY_DPI : ℚ := 300

def MAX_PAGE_WIDTH : ℚ := 1200

def PAGE_SPACING : ℚ := 1

def PRELOAD_DISTANCE : Nat := 2

/-! ### Association lists: model of Python `dict` / `OrderedDict`

`page_cache` is an `OrderedDict` whose entry order is the recency order; the
head of the list is the entry least recently touched.  `text_cache` is a plain
`dict`.  Pixmaps and word lists are opaque payloads, modelled as `Nat`. -/

/-- The key list of an association list (Python `dict.keys()`). -/
def alKeys (l : List (Nat × Nat)) : List Nat := l.map (·.1)

/-- Dictionary lookup: value of the first (with well-formed keys: the only)
binding of `key`. -/
def alLookup : List (Nat × Nat) → Nat → Option Nat
  | [], _ => none
  | (k, v) :: rest, key => if k = key then some v else alLookup rest key

/-- Python `del d[key]` / the removal part of `move_to_end`: drop the binding
of `key` (a no-op when `key` is absent). -/
def alRemove : List (Nat × Nat) → Nat → List (Nat × Nat)
  | [], _ => []
  | (k, v) :: rest, key => if k = key then rest else (k, v) :: alRemove rest key

/-- Python `d[key] = v` on a plain dict: replace in place when present,
append otherwise. -/
def alSet : List (Nat × Nat) → Nat → Nat → List (Nat × Nat)
  | [], key, v => [(key, v)]
  | (k, w) :: rest, key, v =>
    if k = key then (key, v) :: rest else (k, w) :: alSet rest key v

/-! ### PageCache (src/core/pdf_document.py, class PageCache) -/

structure PageCacheM where
  page_cache : List (Nat × Nat)
  text_cache : List (Nat × Nat)
  max_size : Nat
  deriving DecidableEq, Repr

/-- `PageCache.__init__` with an explicit capacity (default `MAX_CACHE_SIZE`). -/
def emptyCache (m : Nat) : PageCacheM := ⟨[], [], m⟩

/-- `PageCache.get_page`: on a hit, move the entry to the fresh end
(`move_to_end`) and return it. -/
def getPageC (c : PageCacheM) (k : Nat) : PageCacheM × Option Nat :=
  match alLookup c.page_cache k with
  | some v => ({ c with page_cache := alRemove c.page_cache k ++ [(k, v)] }, some v)
  | none => (c, none)

/-- `PageCache._cleanup_old_cache`: while the ordered dict is over capacity,
pop the stalest entry and delete its text entry. -/
def cleanupOldCache (m : Nat) :
    List (Nat × Nat) → List (Nat × Nat) → List (Nat × Nat) × List (Nat × Nat)
  | [], tc => ([], tc)
  | (k, v) :: rest, tc =>
    if m < ((k, v) :: rest).length then cleanupOldCache m rest (alRemove tc k)
    else ((k, v) :: rest, tc)

/-- `PageCache.set_page`: store pixmap and words, mark the entry freshest
(`move_to_end`), then evict until the size bound holds. -/
def setPageC (c : PageCacheM) (k v w : Nat) : PageCacheM :=
  let pc := alRemove c.page_cache k ++ [(k, v)]
  let tc := alSet c.text_cache k w
  let cleaned := cleanupOldCache c.max_size pc tc
  { c with page_cache := cleaned.1, text_cache := cleaned.2 }

/-- `PageCache.clear`. -/
def clearC (c : PageCacheM) : PageCacheM := { c with page_cache := [], text_cache := [] }

/-- `PageCache.has_page`. -/
def hasPageC (c : PageCacheM) (k : Nat) : Bool := decide (k ∈ alKeys c.page_cache)

/-- `PageCache.get_text` (returns `[]` on a miss). -/
def getTextC (c : PageCacheM) (k : Nat) : Option Nat := alLookup c.text_cache k

/-- The operations a consumer can perform on a `PageCache`. -/
inductive CacheOp where
  | set (k v w : Nat)
  | get (k : Nat)
  | clear
  deriving DecidableEq, Repr

def applyCacheOp (c : PageCacheM) : CacheOp → PageCacheM
  | .set k v w => setPageC c k v w
  | .get k => (getPageC c k).1
  | .clear => clearC c

/-- State of a capacity-`m` cache after a sequence of operations from empty. -/
def cacheRun (m : Nat) (ops : List CacheOp) : PageCacheM :=
  ops.foldl applyCacheOp (emptyCache m)

/-- Cache states reachable by some operation sequence from a fresh cache. -/
def CacheReachable (c : PageCacheM) : Prop := ∃ m ops, cacheRun m ops = c

/-- Well-formedness maintained by every cache operation: keys of both stores
are duplicate-free, the pixmap store is within capacity, and the two stores
hold exactly the same keys. -/
def CacheWF (c : PageCacheM) : Prop :=
  (alKeys c.page_cache).Nodup ∧ (alKeys c.text_cache).Nodup ∧
  c.page_cache.length ≤ c.max_size ∧
  (∀ j, j ∈ alKeys c.page_cache ↔ j ∈ alKeys c.text_cache)

/-! ### Render dispatch bookkeeping (src/ui/pdf_widget.py, SmoothPDFView)

`pending_renders` is a Python `set` of page indices, `render_threads` a dict
from page index to thread; only their key sets matter here. -/

structure RenderMgr where
  pending : List Nat
  threads : List Nat
  shuttingDown : Bool
  deriving DecidableEq, Repr

/-- Python `set.add` (idempotent insertion). -/
def setAdd (l : List Nat) (i : Nat) : List Nat := if i ∈ l then l else i :: l

/-- `SmoothPDFView._render_page`: bail out while shutting down or when the
index is already pending or already has a thread; otherwise record the index
as pending, create the thread and start it.  The boolean is true iff a new
render thread was started. -/
def renderPageM (st : RenderMgr) (i : Nat) : RenderMgr × Bool :=
  if st.shuttingDown ∨ i ∈ st.pending ∨ i ∈ st.threads then (st, false)
  else ({ st with pending := setAdd st.pending i, threads := setAdd st.threads i }, true)

/-- `SmoothPDFView._on_thread_finished`: discard the index from
`pending_renders` and pop the thread entry. -/
def onThreadFinishedM (st : RenderMgr) (i : Nat) : RenderMgr :=
  { st with pending := st.pending.erase i, threads := st.threads.erase i }

/-- Events of the dispatch/finish protocol of the render manager. -/
inductive MgrEvent where
  | dispatch (i : Nat)
  | finish (i : Nat)
  deriving DecidableEq, Repr

def mgrStep (st : RenderMgr) : MgrEvent → RenderMgr
  | .dispatch i => (renderPageM st i).1
  | .finish i => onThreadFinishedM st i

/-- `SmoothPDFView.__init__`: empty pending set, no threads. -/
def mgrInit : RenderMgr := ⟨[], [], false⟩

def mgrRun (es : List MgrEvent) : RenderMgr := es.foldl mgrStep mgrInit

/-- Render-manager states reachable from start-up. -/
def MgrReachable (st : RenderMgr) : Prop := ∃ es, mgrRun es = st

/-- Invariant of the dispatch/finish protocol: both trackers are
duplicate-free and track the same index set. -/
def MgrWF (st : RenderMgr) : Prop :=
  st.pending.Nodup ∧ st.threads.Nodup ∧ (∀ j, j ∈ st.pending ↔ j ∈ st.threads)

/-! ### Visible pages (SmoothPDFView._get_visible_pages) -/

/-- Loop of `_get_visible_pages`: walk `zip(page_positions, page_heights)`
with a running index; a page is kept when
`(page_y - VIEWPORT_BUFFER) < viewport.bottom` and
`(page_bottom + VIEWPORT_BUFFER) > viewport.top`. -/
def visiblePagesAux (top bottom : ℚ) : Nat → List (ℚ × ℚ) → List Nat
  | _, [] => []
  | i, (y, h) :: rest =>
    if y - VIEWPORT_BUFFER < bottom ∧ y + h + VIEWPORT_BUFFER > top then
      i :: visiblePagesAux top bottom (i + 1) rest
    else visiblePagesAux top bottom (i + 1) rest

def getVisiblePages (pages : List (ℚ × ℚ)) (top bottom : ℚ) : List Nat :=
  visiblePagesAux top bottom 0 pages

/-- The visibility test exactly as the spec/claim words it, with the buffer
left as a parameter: `(page_bottom + buffer) > viewport_top` and
`(page_top - buffer) < viewport_bottom`. -/
def visibleSpec (buffer y h top bottom : ℚ) : Prop :=
  y + h + buffer > top ∧ y - buffer < bottom

/-! ### Preview application (SmoothPDFView._on_preview_rendered) -/

structure ViewDisplay where
  shuttingDown : Bool
  cache : PageCacheM
  items : List (Option Nat)
  deriving DecidableEq, Repr

/-- `_on_preview_rendered`: return while shutting down or out of range;
apply the preview pixmap to the page item only when the cache holds no entry
for that page (`has_page` is false at application time). -/
def onPreviewRendered (st : ViewDisplay) (i pix : Nat) : ViewDisplay :=
  if st.shuttingDown ∨ st.items.length ≤ i then st
  else if hasPageC st.cache i then st
  else { st with items := st.items.set i (some pix) }

/-! ### Render parameters (src/core/render_thread.py, PageRenderThread) -/

/-- `PageRenderThread.__init__` stores `self.dpi = max(dpi, 150)`. -/
def threadDpi (dpi : ℚ) : ℚ := max dpi 150

/-- `PageRenderThread._calculate_render_params` on a page of native width
`pageWidth`: returns `(render_dpi, render_scale)`.  `targetWidth` models the
Python-truthy `self.target_width` (`none` and `some 0` are falsy). -/
def calcRenderParams (zoom dpi : ℚ) (targetWidth : Option ℚ) (highQuality : Bool)
    (pageWidth : ℚ) : ℚ × ℚ :=
  let baseScale :=
    match targetWidth with
    | some w => if w ≠ 0 then w / pageWidth else zoom
    | none => zoom
  let renderDpi :=
    if highQuality then
      if baseScale ≤ 1 then max dpi 200
      else if baseScale ≤ 2 then max dpi 250
      else max dpi 300
    else dpi
  (renderDpi, baseScale * (renderDpi / 72))

/-- The raster scale exactly as claim C8 words it: `zoom * (dpi/72)` with the
DPI floors 200/250/300 keyed on the zoom factor. -/
def claimScaleC8 (zoom dpi : ℚ) : ℚ :=
  zoom * ((if zoom ≤ 1 then max dpi 200
           else if zoom ≤ 2 then max dpi 250
           else max dpi 300) / 72)

/-- The base scale the code actually rasters at: `target_width / page_width`
when a truthy target width was passed, else the zoom factor. -/
def effBaseScale (zoom : ℚ) (targetWidth : Option ℚ) (pageWidth : ℚ) : ℚ :=
  match targetWidth with
  | some w => if w ≠ 0 then w / pageWidth else zoom
  | none => zoom

/-- The corrected high-quality raster-scale formula: base scale as in
`effBaseScale`, DPI floors keyed on that base scale. -/
def specScaleC8 (zoom dpi : ℚ) (targetWidth : Option ℚ) (pageWidth : ℚ) : ℚ :=
  let s := effBaseScale zoom targetWidth pageWidth
  s * ((if s ≤ 1 then max dpi 200 else if s ≤ 2 then max dpi 250 else max dpi 300) / 72)

/-! ### Zoom handling (SmoothPDFView.set_zoom_internal, _setup_pages) -/

/-- `SmoothPDFView._setup_pages` layout loop: for each native page rect,
display size is the `int`-truncated `rect * zoom * (DEFAULT_DPI/72)`, the
width clamped to `MAX_PAGE_WIDTH` with the height rescaled proportionally;
pages are stacked with `PAGE_SPACING` between them.  Returns the
`(y_offset, display_height)` per page.  (`int()` is modelled as `Int.floor`;
all quantities are nonnegative in use.) -/
def setupPagesAux (zoom : ℚ) : ℚ → List (ℚ × ℚ) → List (ℚ × ℚ)
  | _, [] => []
  | y, (w, h) :: rest =>
    let s := zoom * (DEFAULT_DPI / 72)
    let dw : ℚ := ((⌊w * s⌋ : ℤ) : ℚ)
    let dh : ℚ := ((⌊h * s⌋ : ℤ) : ℚ)
    let dh := if dw > MAX_PAGE_WIDTH then ((⌊dh * (MAX_PAGE_WIDTH / dw)⌋ : ℤ) : ℚ) else dh
    (y, dh) :: setupPagesAux zoom (y + dh + PAGE_SPACING) rest

/-- The widget state touched by `set_zoom_internal`. -/
structure ZoomView where
  docLoaded : Bool
  current_zoom : ℚ
  base_zoom : ℚ
  pageRects : List (ℚ × ℚ)
  positions : List ℚ
  heights : List ℚ
  cache : PageCacheM
  deriving DecidableEq, Repr

/-- `SmoothPDFView.set_zoom_internal`: no document — return; clamp the factor
to `[MIN_ZOOM, MAX_ZOOM]`; if the clamped factor differs from the current
zoom by less than 0.01, return without touching any state; otherwise update
the zoom, rebuild the layout, clear the page cache and re-render the visible
pages (the boolean records that a re-render was dispatched). -/
def setZoomInternal (st : ZoomView) (zoomFactor : ℚ) : ZoomView × Bool :=
  if ¬ st.docLoaded then (st, false)
  else
    let z := max MIN_ZOOM (min zoomFactor MAX_ZOOM)
    if |z - st.current_zoom| < 1 / 100 then (st, false)
    else
      let layout := setupPagesAux z 0 st.pageRects
      ({ st with
          current_zoom := z
          base_zoom := z
          positions := layout.map (·.1)
          heights := layout.map (·.2)
          cache := clearC st.cache }, true)

/-! ### Text selection geometry (src/core/text_selection.py)

Qt `QRect` has integer coordinates and stores `x2 = x + w - 1`,
`y2 = y + h - 1`; `center` uses C++ truncating division. -/

structure QRectI where
  x : Int
  y : Int
  w : Int
  h : Int
  deriving DecidableEq, Repr

def QRectI.x2 (r : QRectI) : Int := r.x + r.w - 1

def QRectI.y2 (r : QRectI) : Int := r.y + r.h - 1

/-- `QRect.isNull`: width and height both zero. -/
def QRectI.isNull (r : QRectI) : Bool := r.w == 0 && r.h == 0

/-- `QRect.center().x()`: truncating division of `x1 + x2` by 2. -/
def QRectI.centerX (r : QRectI) : Int := Int.tdiv (r.x + r.x2) 2

/-- `QRect.center().y()`. -/
def QRectI.centerY (r : QRectI) : Int := Int.tdiv (r.y + r.y2) 2

/-- Qt6 `QRect::intersects`: null rectangles intersect nothing; inverted
rectangles are normalized; otherwise closed-interval overlap on both axes. -/
def QRectI.intersects (r1 r2 : QRectI) : Bool :=
  if r1.isNull || r2.isNull then false
  else
    let l1 := if r1.x2 - r1.x + 1 < 0 then r1.x2 else r1.x
    let rr1 := if r1.x2 - r1.x + 1 < 0 then r1.x else r1.x2
    let l2 := if r2.x2 - r2.x + 1 < 0 then r2.x2 else r2.x
    let rr2 := if r2.x2 - r2.x + 1 < 0 then r2.x else r2.x2
    if l1 > rr2 ∨ l2 > rr1 then false
    else
      let t1 := if r1.y2 - r1.y + 1 < 0 then r1.y2 else r1.y
      let b1 := if r1.y2 - r1.y + 1 < 0 then r1.y else r1.y2
      let t2 := if r2.y2 - r2.y + 1 < 0 then r2.y2 else r2.y
      let b2 := if r2.y2 - r2.y + 1 < 0 then r2.y else r2.y2
      if t1 > b2 ∨ t2 > b1 then false
      else true

/-- A visible word as stored in `visible_words`: page number, screen-space
display rect and text. -/
structure VWord where
  page_num : Nat
  display_rect : QRectI
  wtext : String
  deriving DecidableEq, Repr

/-- Claim-side predicate: the word's display-rect center lies inside the
normalized drag rectangle (inclusive bounds, as in the code). -/
def centerInRect (w : VWord) (sx ex sy ey : Int) : Prop :=
  sx ≤ w.display_rect.centerX ∧ w.display_rect.centerX ≤ ex ∧
  sy ≤ w.display_rect.centerY ∧ w.display_rect.centerY ≤ ey

/-- Primary pass of `_update_text_selection`: walk `enumerate(visible_words)`
collecting `(i, page_num, center_y, center_x)` for words whose center lies in
the rectangle. -/
def primaryPassAux (sx ex sy ey : Int) : Nat → List VWord → List (Nat × Nat × Int × Int)
  | _, [] => []
  | i, w :: rest =>
    if sx ≤ w.display_rect.centerX ∧ w.display_rect.centerX ≤ ex ∧
       sy ≤ w.display_rect.centerY ∧ w.display_rect.centerY ≤ ey then
      (i, w.page_num, w.display_rect.centerY, w.display_rect.centerX) ::
        primaryPassAux sx ex sy ey (i + 1) rest
    else primaryPassAux sx ex sy ey (i + 1) rest

def primaryPass (words : List VWord) (sx ex sy ey : Int) : List (Nat × Nat × Int × Int) :=
  primaryPassAux sx ex sy ey 0 words

/-- Fallback pass: same walk, collecting words whose display rect intersects
the selection `QRect(sx, sy, ex - sx, ey - sy)`. -/
def fallbackPassAux (sel : QRectI) : Nat → List VWord → List (Nat × Nat × Int × Int)
  | _, [] => []
  | i, w :: rest =>
    if QRectI.intersects sel w.display_rect then
      (i, w.page_num, w.display_rect.centerY, w.display_rect.centerX) ::
        fallbackPassAux sel (i + 1) rest
    else fallbackPassAux sel (i + 1) rest

def fallbackPass (words : List VWord) (sel : QRectI) : List (Nat × Nat × Int × Int) :=
  fallbackPassAux sel 0 words

/-- Python's `selected.sort(key=lambda x: (x[1], x[2], x[3]))`: a stable
ascending sort; inserting each element before the first strictly greater key
reproduces it. -/
def selKeyLt (a b : Nat × Nat × Int × Int) : Prop :=
  a.2.1 < b.2.1 ∨ (a.2.1 = b.2.1 ∧
    (a.2.2.1 < b.2.2.1 ∨ (a.2.2.1 = b.2.2.1 ∧ a.2.2.2 < b.2.2.2)))

instance : DecidableRel selKeyLt := fun a b => by
  unfold selKeyLt
  infer_instance

/-- `TextSelection._update_text_selection` for a drag from `startPos` to
`currentPos`: normalize the corner points, run the center pass, use the
intersection pass only when the center pass selected nothing, sort the
selection by `(page_num, center_y, center_x)` and record the word indices. -/
def updateTextSelection (startPos currentPos : Int × Int) (words : List VWord) :
    List Nat :=
  let sx := min startPos.1 currentPos.1
  let ex := max startPos.1 currentPos.1
  let sy := min startPos.2 currentPos.2
  let ey := max startPos.2 currentPos.2
  let selected := primaryPass words sx ex sy ey
  let selected :=
    if selected = [] then fallbackPass words ⟨sx, sy, ex - sx, ey - sy⟩ else selected
  (List.insertionSort selKeyLt selected).map (·.1)

/-! ### Selection serialization (TextSelection._extract_selected_text) -/

/-- The `(page_num, center_y, center_x, text)` tuple built per selected word
before sorting. -/
structure SelTuple where
  pg : Nat
  cy : Int
  cx : Int
  txt : String
  deriving DecidableEq, Repr

/-- Python's tuple comparison for `selected_data.sort()`: lexicographic on
`(page_num, center_y, center_x, text)` (strings by code point). -/
def pyTupleLe (a b : SelTuple) : Prop :=
  a.pg < b.pg ∨ (a.pg = b.pg ∧ (a.cy < b.cy ∨ (a.cy = b.cy ∧
    (a.cx < b.cx ∨ (a.cx = b.cx ∧ a.txt ≤ b.txt)))))

instance : DecidableRel pyTupleLe := fun a b => by
  unfold pyTupleLe
  infer_instance

instance : IsTotal SelTuple pyTupleLe := by
  constructor
  intro a b
  unfold pyTupleLe
  rcases Nat.lt_trichotomy a.pg b.pg with h1 | h1 | h1
  · exact Or.inl (Or.inl h1)
  · rcases Int.lt_trichotomy a.cy b.cy with h2 | h2 | h2
    · exact Or.inl (Or.inr ⟨h1, Or.inl h2⟩)
    · rcases Int.lt_trichotomy a.cx b.cx with h3 | h3 | h3
      · exact Or.inl (Or.inr ⟨h1, Or.inr ⟨h2, Or.inl h3⟩⟩)
      · rcases le_total a.txt b.txt with h4 | h4
        · exact Or.inl (Or.inr ⟨h1, Or.inr ⟨h2, Or.inr ⟨h3, h4⟩⟩⟩)
        · exact Or.inr (Or.inr ⟨h1.symm, Or.inr ⟨h2.symm, Or.inr ⟨h3.symm, h4⟩⟩⟩)
      · exact Or.inr (Or.inr ⟨h1.symm, Or.inr ⟨h2.symm, Or.inl h3⟩⟩)
    · exact Or.inr (Or.inr ⟨h1.symm, Or.inl h2⟩)
  · exact Or.inr (Or.inl h1)

instance : IsTrans SelTuple pyTupleLe := by
  constructor
  intro a b c hab hbc
  unfold pyTupleLe at hab hbc ⊢
  rcases hab with h1 | ⟨e1, hab⟩
  · rcases hbc with h2 | ⟨e2, _⟩
    · exact Or.inl (h1.trans h2)
    · exact Or.inl (by omega)
  · rcases hbc with h2 | ⟨e2, hbc⟩
    · exact Or.inl (by omega)
    · refine Or.inr ⟨e1.trans e2, ?_⟩
      rcases hab with h3 | ⟨f1, hab⟩
      · rcases hbc with h4 | ⟨f2, _⟩
        · exact Or.inl (h3.trans h4)
        · exact Or.inl (by omega)
      · rcases hbc with h4 | ⟨f2, hbc⟩
        · exact Or.inl (by omega)
        · refine Or.inr ⟨f1.trans f2, ?_⟩
          rcases hab with h5 | ⟨g1, hab⟩
          · rcases hbc with h6 | ⟨g2, _⟩
            · exact Or.inl (h5.trans h6)
            · exact Or.inl (by omega)
          · rcases hbc with h6 | ⟨g2, hbc⟩
            · exact Or.inl (by omega)
            · exact Or.inr ⟨g1.trans g2, le_trans hab hbc⟩

/-- `selected_data.sort()`: ascending stable sort under the tuple order. -/
def sortSel (l : List SelTuple) : List SelTuple := List.insertionSort pyTupleLe l

/-- The claimed reading order: non-decreasing `(page_index, center_y,
center_x)` lexicographically. -/
def projLe (a b : SelTuple) : Prop :=
  a.pg < b.pg ∨ (a.pg = b.pg ∧ (a.cy < b.cy ∨ (a.cy = b.cy ∧ a.cx ≤ b.cx)))

/-- The page-break fragment `'\n--- 第 {page_num + 1} 页 ---\n'`. -/
def pageMarker (pg : Nat) : String := "\n--- 第 " ++ toString (pg + 1) ++ " 页 ---\n"

/-- `texts[-1].endswith(' ') or texts[-1].endswith('\n')`. -/
def endsWS (s : String) : Bool :=
  match s.data.getLast? with
  | some c => c == ' ' || c == '\n'
  | none => false

/-- The third branch of the separator chain: a single space when the
fragment list is non-empty and its last fragment does not already end in a
space or newline. -/
def spaceSep (texts : List String) : List String :=
  match texts.getLast? with
  | some t => if endsWS t then [] else [" "]
  | none => []

/-- The separator fragments inserted before a word of page `pg` and center-y
`y`, given the accumulated fragments and the previous word's
`(last_page, last_y)` (`none` before the first word). -/
def sepFor (texts : List String) (last : Option (Nat × Int)) (pg : Nat) (y : Int) :
    List String :=
  match last with
  | some (lp, ly) =>
    if pg ≠ lp then [pageMarker pg]
    else if 15 < (y - ly).natAbs then ["\n"]
    else spaceSep texts
  | none => spaceSep texts

/-- One iteration of the serialization loop: append the separator fragments
and the word's text, remember `(last_page, last_y)`. -/
def extractStep (acc : List String × Option (Nat × Int)) (w : SelTuple) :
    List String × Option (Nat × Int) :=
  (acc.1 ++ sepFor acc.1 acc.2 w.pg w.cy ++ [w.txt], some (w.pg, w.cy))

/-- Python `''.join(texts)`. -/
def joinAll (l : List String) : String := l.foldl (· ++ ·) ""

/-- The whitespace stripped by Python `str.strip()` (ASCII subset). -/
def isWS (c : Char) : Bool := c == ' ' || c == '\t' || c == '\n' || c == '\r'

/-- Python `str.strip()`: drop leading and trailing whitespace. -/
def pyStrip (s : String) : String :=
  ⟨((s.data.dropWhile isWS).reverse.dropWhile isWS).reverse⟩

/-- `TextSelection._extract_selected_text` on the selected words' tuples:
empty selection serializes to `""`; otherwise sort, walk the sorted words
emitting separators, join and strip. -/
def extractSelectedText (l : List SelTuple) : String :=
  if l = [] then ""
  else pyStrip (joinAll ((sortSel l).foldl extractStep ([], none)).1)

/-! ### Render worker pipeline (src/core/render_thread.py, PageRenderThread)

The cancel flag is cooperative and monotone: `stopAt = some s` means
`_should_stop()` starts returning `True` at its `s`-th call (counting all
polls of the run, including those in the preview pass, the extract loop and
the exception handlers); `none` means the flag is never set. -/

/-- A raw tuple from `page.get_text("words")`: its arity and fields. -/
structure RawWord where
  arity : Nat
  x0 : Int
  y0 : Int
  x1 : Int
  y1 : Int
  wtext : String
  deriving DecidableEq, Repr

/-- A word record produced by `_extract_text_words`. -/
structure TWord where
  wtext : String
  bbox : Int × Int × Int × Int
  page_num : Nat
  deriving DecidableEq, Repr

/-- The backend behaviour a worker observes: which pipeline stages raise,
the quality tier, and the page's raw word list. -/
structure Backend where
  fetchOk : Bool
  previewRasterOk : Bool
  rasterOk : Bool
  convertOk : Bool
  extractOk : Bool
  highQuality : Bool
  words : List RawWord
  deriving DecidableEq, Repr

/-- Value of `_should_stop()` at the `k`-th poll. -/
def pollAt (stopAt : Option Nat) (k : Nat) : Bool :=
  match stopAt with
  | some s => decide (s ≤ k)
  | none => false

/-- `_extract_text_words`: one `_should_stop` poll per raw word (`break` when
set); keep tuples of arity ≥ 5 whose stripped text is non-empty.  Returns the
next poll index and the extracted words. -/
def extractWordsLoop (stopAt : Option Nat) (pg : Nat) :
    Nat → List RawWord → Nat × List TWord
  | n, [] => (n, [])
  | n, w :: rest =>
    if pollAt stopAt n then (n + 1, [])
    else
      let ew := extractWordsLoop stopAt pg (n + 1) rest
      if 5 ≤ w.arity ∧ pyStrip w.wtext ≠ "" then
        (ew.1, ⟨w.wtext, (w.x0, w.y0, w.x1, w.y1), pg⟩ :: ew.2)
      else (ew.1, ew.2)

/-- `_render_preview`: raster at 96 DPI, poll, convert + scale, poll, emit
the preview; its own `try/except` swallows failures.  Returns the next poll
index and whether `preview_rendered` was emitted. -/
def renderPreviewRun (b : Backend) (stopAt : Option Nat) (n : Nat) : Nat × Bool :=
  if ¬ b.previewRasterOk then (n, false)
  else if pollAt stopAt n then (n + 1, false)
  else if ¬ b.convertOk then (n + 1, false)
  else (n + 2, !(pollAt stopAt (n + 1)))

/-- Outcome of one worker run: the `page_rendered` payload (if emitted), the
`preview_rendered` flag, and the total number of `_should_stop` polls. -/
structure RunResult where
  pageRendered : Option (List TWord)
  previewRendered : Bool
  polls : Nat
  deriving DecidableEq, Repr

/-- The tail of `run` after the preview block, entered with next poll index
`n`: raster (throws → caught, the handler polls once for its log guard) →
poll → convert → poll → smart-scale → poll → `get_text` (throws → caught) →
extract loop → final emission gate. -/
def runMain (b : Backend) (stopAt : Option Nat) (pg : Nat) (n : Nat) (pv : Bool) :
    RunResult :=
  if ¬ b.rasterOk then ⟨none, pv, n + 1⟩
  else if pollAt stopAt n then ⟨none, pv, n + 1⟩
  else if ¬ b.convertOk then ⟨none, pv, n + 2⟩
  else if pollAt stopAt (n + 1) then ⟨none, pv, n + 2⟩
  else if pollAt stopAt (n + 2) then ⟨none, pv, n + 3⟩
  else if ¬ b.extractOk then ⟨none, pv, n + 4⟩
  else
    let ew := extractWordsLoop stopAt pg (n + 3) b.words
    if pollAt stopAt ew.1 then ⟨none, pv, ew.1 + 1⟩
    else ⟨some ew.2, pv, ew.1 + 1⟩

/-- `PageRenderThread.run`: poll → page fetch (throws → caught, handler
polls once) → poll → preview pass (non-high-quality tasks only, followed by
a poll) → the main pipeline. -/
def runThread (b : Backend) (stopAt : Option Nat) (pg : Nat) : RunResult :=
  if pollAt stopAt 0 then ⟨none, false, 1⟩
  else if ¬ b.fetchOk then ⟨none, false, 2⟩
  else if pollAt stopAt 1 then ⟨none, false, 2⟩
  else if b.highQuality then runMain b stopAt pg 2 false
  else
    let pv := renderPreviewRun b stopAt 2
    if pollAt stopAt pv.1 then ⟨none, pv.2, pv.1 + 1⟩
    else runMain b stopAt pg (pv.1 + 1) pv.2

/-- `_on_page_rendered` runs only when `page_rendered` was emitted; a run
with no emission leaves the cache untouched. -/
def applyRunResult (c : PageCacheM) (r : RunResult) (pg pix w : Nat) : PageCacheM :=
  match r.pageRendered with
  | some _ => setPageC c pg pix w
  | none => c

/-! ## Theorems -/

theorem alKeys_nil : alKeys [] = [] := rfl

theorem alKeys_cons (p : Nat × Nat) (l : List (Nat × Nat)) :
    alKeys (p :: l) = p.1 :: alKeys l := rfl

theorem alKeys_singleton (k v : Nat) : alKeys [(k, v)] = [k] := rfl

theorem alKeys_append (l₁ l₂ : List (Nat × Nat)) :
    alKeys (l₁ ++ l₂) = alKeys l₁ ++ alKeys l₂ := List.map_append _ _ _

theorem alKeys_drop (n : Nat) (l : List (Nat × Nat)) :
    alKeys (l.drop n) = (alKeys l).drop n := by
  induction l generalizing n with
  | nil => simp [alKeys_nil]
  | cons p rest ih =>
    cases n with
    | zero => rfl
    | succ n => simpa [alKeys_cons] using ih n

theorem alRemove_cons_self (a b : Nat) (rest : List (Nat × Nat)) :
    alRemove ((a, b) :: rest) a = rest := by
  simp [alRemove]

theorem alRemove_cons_ne {a k : Nat} (b : Nat) (rest : List (Nat × Nat)) (h : ¬ a = k) :
    alRemove ((a, b) :: rest) k = (a, b) :: alRemove rest k := by
  simp [alRemove, h]

theorem mem_alKeys_alRemove_of_ne {l : List (Nat × Nat)} {j k : Nat} (h : j ≠ k) :
    j ∈ alKeys (alRemove l k) ↔ j ∈ alKeys l := by
  induction l with
  | nil => simp [alRemove]
  | cons p rest ih =>
    obtain ⟨a, b⟩ := p
    by_cases hak : a = k
    · subst hak
      rw [alRemove_cons_self, alKeys_cons]
      simp [h]
    · rw [alRemove_cons_ne b rest hak, alKeys_cons, alKeys_cons]
      simp [ih]

theorem mem_alKeys_of_mem_alRemove {l : List (Nat × Nat)} {j k : Nat}
    (h : j ∈ alKeys (alRemove l k)) : j ∈ alKeys l := by
  induction l with
  | nil => simpa [alRemove] using h
  | cons p rest ih =>
    obtain ⟨a, b⟩ := p
    by_cases hak : a = k
    · subst hak
      rw [alRemove_cons_self] at h
      rw [alKeys_cons]
      exact List.mem_cons_of_mem _ h
    · rw [alRemove_cons_ne b rest hak, alKeys_cons] at h
      rw [alKeys_cons]
      rcases List.mem_cons.mp h with h | h
      · exact List.mem_cons.mpr (Or.inl h)
      · exact List.mem_cons.mpr (Or.inr (ih h))

theorem not_mem_alKeys_alRemove {l : List (Nat × Nat)} {k : Nat}
    (h : (alKeys l).Nodup) : k ∉ alKeys (alRemove l k) := by
  induction l with
  | nil => simp [alRemove, alKeys_nil]
  | cons p rest ih =>
    obtain ⟨a, b⟩ := p
    rw [alKeys_cons, List.nodup_cons] at h
    by_cases hak : a = k
    · subst hak
      rw [alRemove_cons_self]
      exact h.1
    · rw [alRemove_cons_ne b rest hak, alKeys_cons]
      intro hmem
      rcases List.mem_cons.mp hmem with hmem | hmem
      · exact hak hmem.symm
      · exact ih h.2 hmem

theorem nodup_alKeys_alRemove {l : List (Nat × Nat)} {k : Nat}
    (h : (alKeys l).Nodup) : (alKeys (alRemove l k)).Nodup := by
  induction l with
  | nil => simp [alRemove, alKeys_nil]
  | cons p rest ih =>
    obtain ⟨a, b⟩ := p
    rw [alKeys_cons, List.nodup_cons] at h
    by_cases hak : a = k
    · subst hak
      rw [alRemove_cons_self]
      exact h.2
    · rw [alRemove_cons_ne b rest hak, alKeys_cons, List.nodup_cons]
      exact ⟨fun hmem => h.1 (mem_alKeys_of_mem_alRemove hmem), ih h.2⟩

theorem alRemove_of_not_mem {l : List (Nat × Nat)} {k : Nat}
    (h : k ∉ alKeys l) : alRemove l k = l := by
  induction l with
  | nil => rfl
  | cons p rest ih =>
    obtain ⟨a, b⟩ := p
    rw [alKeys_cons, List.mem_cons] at h
    push_neg at h
    rw [alRemove_cons_ne b rest (fun hk => h.1 hk.symm), ih h.2]

theorem length_alRemove_of_mem {l : List (Nat × Nat)} {k : Nat} (h : k ∈ alKeys l) :
    (alRemove l k).length = l.length - 1 := by
  induction l with
  | nil => simp [alKeys_nil] at h
  | cons p rest ih =>
    obtain ⟨a, b⟩ := p
    by_cases hak : a = k
    · subst hak
      rw [alRemove_cons_self]
      simp
    · rw [alKeys_cons, List.mem_cons] at h
      rcases h with h | h
      · exact absurd h.symm hak
      · rw [alRemove_cons_ne b rest hak]
        have hpos : 0 < rest.length := by
          rcases rest with _ | ⟨q, rest'⟩
          · simp [alKeys_nil] at h
          · simp
        simp only [List.length_cons, ih h]
        omega

theorem mem_alKeys_alSet {l : List (Nat × Nat)} {j k v : Nat} :
    j ∈ alKeys (alSet l k v) ↔ j ∈ alKeys l ∨ j = k := by
  induction l with
  | nil => simp [alSet, alKeys_singleton, alKeys_nil]
  | cons p rest ih =>
    obtain ⟨a, b⟩ := p
    by_cases hak : a = k
    · subst hak
      rw [show alSet ((a, b) :: rest) a v = (a, v) :: rest from by simp [alSet]]
      rw [alKeys_cons, alKeys_cons]
      simp only [List.mem_cons]
      constructor
      · rintro (h | h)
        · exact Or.inr h
        · exact Or.inl (Or.inr h)
      · rintro ((h | h) | h)
        · exact Or.inl h
        · exact Or.inr h
        · exact Or.inl h
    · rw [show alSet ((a, b) :: rest) k v = (a, b) :: alSet rest k v from by simp [alSet, hak]]
      rw [alKeys_cons, alKeys_cons]
      simp only [List.mem_cons, ih]
      tauto

theorem nodup_alKeys_alSet {l : List (Nat × Nat)} {k v : Nat}
    (h : (alKeys l).Nodup) : (alKeys (alSet l k v)).Nodup := by
  induction l with
  | nil => simp [alSet, alKeys_singleton]
  | cons p rest ih =>
    obtain ⟨a, b⟩ := p
    rw [alKeys_cons, List.nodup_cons] at h
    by_cases hak : a = k
    · subst hak
      rw [show alSet ((a, b) :: rest) a v = (a, v) :: rest from by simp [alSet]]
      rw [alKeys_cons, List.nodup_cons]
      exact h
    · rw [show alSet ((a, b) :: rest) k v = (a, b) :: alSet rest k v from by simp [alSet, hak]]
      rw [alKeys_cons, List.nodup_cons]
      refine ⟨fun hmem => ?_, ih h.2⟩
      rcases mem_alKeys_alSet.mp hmem with hmem | hmem
      · exact h.1 hmem
      · exact hak hmem

theorem alLookup_mem_alKeys {l : List (Nat × Nat)} {k v : Nat}
    (h : alLookup l k = some v) : k ∈ alKeys l := by
  induction l with
  | nil => simp [alLookup] at h
  | cons p rest ih =>
    obtain ⟨a, b⟩ := p
    by_cases hak : a = k
    · subst hak
      rw [alKeys_cons]
      exact List.mem_cons_self _ _
    · rw [show alLookup ((a, b) :: rest) k = alLookup rest k from by simp [alLookup, hak]] at h
      rw [alKeys_cons]
      exact List.mem_cons_of_mem _ (ih h)

/-- `_cleanup_old_cache` keeps exactly the freshest `max_size` entries: it
drops the stalest excess from the front of the recency order. -/
theorem cleanupOldCache_fst (m : Nat) (pc tc : List (Nat × Nat)) :
    (cleanupOldCache m pc tc).1 = pc.drop (pc.length - m) := by
  induction pc generalizing tc with
  | nil => simp [cleanupOldCache]
  | cons p rest ih =>
    obtain ⟨k, v⟩ := p
    by_cases h : m < ((k, v) :: rest).length
    · rw [show cleanupOldCache m ((k, v) :: rest) tc = cleanupOldCache m rest (alRemove tc k)
          from by simp only [cleanupOldCache]; rw [if_pos h]]
      rw [ih]
      simp only [List.length_cons] at h ⊢
      have h1 : rest.length + 1 - m = (rest.length - m) + 1 := by omega
      rw [h1]
      rfl
    · rw [show cleanupOldCache m ((k, v) :: rest) tc = ((k, v) :: rest, tc)
          from by simp only [cleanupOldCache]; rw [if_neg h]]
      simp only [List.length_cons] at h
      have h1 : rest.length + 1 - m = 0 := by omega
      simp [h1]

/-- The text-cache side of `_cleanup_old_cache` keeps the key sets of the two
stores aligned (and keeps the text keys duplicate-free). -/
theorem cleanupOldCache_keys_iff (m : Nat) (pc : List (Nat × Nat)) :
    ∀ tc : List (Nat × Nat), (alKeys pc).Nodup → (alKeys tc).Nodup →
    (∀ j, j ∈ alKeys pc ↔ j ∈ alKeys tc) →
    (∀ j, j ∈ alKeys (cleanupOldCache m pc tc).1 ↔
      j ∈ alKeys (cleanupOldCache m pc tc).2) ∧
    (alKeys (cleanupOldCache m pc tc).2).Nodup := by
  induction pc with
  | nil =>
    intro tc hpc htc hsame
    refine ⟨fun j => ?_, by simpa [cleanupOldCache] using htc⟩
    simpa [cleanupOldCache] using (hsame j)
  | cons p rest ih =>
    intro tc hpc htc hsame
    obtain ⟨k, v⟩ := p
    by_cases h : m < ((k, v) :: rest).length
    · rw [show cleanupOldCache m ((k, v) :: rest) tc = cleanupOldCache m rest (alRemove tc k)
          from by simp only [cleanupOldCache]; rw [if_pos h]]
      rw [alKeys_cons, List.nodup_cons] at hpc
      refine ih (alRemove tc k) hpc.2 (nodup_alKeys_alRemove htc) fun j => ?_
      by_cases hjk : j = k
      · subst hjk
        constructor
        · intro hmem
          exact absurd hmem hpc.1
        · intro hmem
          exact absurd hmem (not_mem_alKeys_alRemove htc)
      · rw [mem_alKeys_alRemove_of_ne hjk, ← hsame j, alKeys_cons]
        simp [hjk]
    · rw [show cleanupOldCache m ((k, v) :: rest) tc = ((k, v) :: rest, tc)
          from by simp only [cleanupOldCache]; rw [if_neg h]]
      exact ⟨hsame, htc⟩

theorem setPageC_page_cache (c : PageCacheM) (k v w : Nat) :
    (setPageC c k v w).page_cache =
      (alRemove c.page_cache k ++ [(k, v)]).drop
        ((alRemove c.page_cache k ++ [(k, v)]).length - c.max_size) := by
  simp [setPageC, cleanupOldCache_fst]

theorem setPageC_length_le (c : PageCacheM) (k v w : Nat) :
    (setPageC c k v w).page_cache.length ≤ c.max_size := by
  rw [setPageC_page_cache, List.length_drop]
  omega

theorem setPageC_mem_keys (c : PageCacheM) (k v w : Nat)
    (hlen : c.page_cache.length ≤ c.max_size) {j : Nat}
    (hj : j ∈ alKeys c.page_cache)
    (hout : j ∉ alKeys (setPageC c k v w).page_cache) :
    ∃ p rest, c.page_cache = p :: rest ∧ j = p.1 := by
  have hpos : 0 < c.page_cache.length := by
    refine List.length_pos.mpr ?_
    intro h0
    rw [h0] at hj
    simp [alKeys_nil] at hj
  by_cases hk : k ∈ alKeys c.page_cache
  · -- the key was already present: lengths do not grow, nothing is evicted
    exfalso
    apply hout
    have hlr : (alRemove c.page_cache k ++ [(k, v)]).length = c.page_cache.length := by
      rw [List.length_append, length_alRemove_of_mem hk]
      simp only [List.length_singleton]
      omega
    rw [setPageC_page_cache, hlr]
    have hz : c.page_cache.length - c.max_size = 0 := by omega
    rw [hz, List.drop_zero, alKeys_append]
    by_cases hjk : j = k
    · subst hjk
      refine List.mem_append_right _ ?_
      rw [alKeys_singleton]
      exact List.mem_singleton_self _
    · exact List.mem_append_left _ ((mem_alKeys_alRemove_of_ne hjk).mpr hj)
  · -- a genuinely new key
    have hrm : alRemove c.page_cache k = c.page_cache := alRemove_of_not_mem hk
    have hlr : (alRemove c.page_cache k ++ [(k, v)]).length = c.page_cache.length + 1 := by
      rw [List.length_append, hrm]
      simp
    by_cases hfull : c.page_cache.length + 1 ≤ c.max_size
    · exfalso
      apply hout
      rw [setPageC_page_cache, hlr]
      have hz : c.page_cache.length + 1 - c.max_size = 0 := by omega
      rw [hz, List.drop_zero, hrm, alKeys_append]
      exact List.mem_append_left _ hj
    · -- the cache was exactly full: exactly the stale head entry is dropped
      have hm : c.page_cache.length = c.max_size := by omega
      obtain ⟨p, rest, hpc⟩ : ∃ p rest, c.page_cache = p :: rest := by
        cases hcc : c.page_cache with
        | nil => rw [hcc] at hpos; simp at hpos
        | cons p rest => exact ⟨p, rest, rfl⟩
      refine ⟨p, rest, hpc, ?_⟩
      by_contra hne
      apply hout
      rw [setPageC_page_cache, hlr]
      have hz : c.page_cache.length + 1 - c.max_size = 1 := by omega
      rw [hz, hrm, hpc]
      rw [show ((p :: rest) ++ [(k, v)]).drop 1 = rest ++ [(k, v)] from by simp]
      rw [alKeys_append]
      refine List.mem_append_left _ ?_
      rw [hpc, alKeys_cons] at hj
      rcases List.mem_cons.mp hj with hj | hj
      · exact absurd hj hne
      · exact hj

theorem cacheWF_empty (m : Nat) : CacheWF (emptyCache m) := by
  refine ⟨by simp [emptyCache, alKeys_nil], by simp [emptyCache, alKeys_nil],
    by simp [emptyCache], fun j => ?_⟩
  simp [emptyCache, alKeys_nil]

theorem cacheWF_setPageC {c : PageCacheM} (h : CacheWF c) (k v w : Nat) :
    CacheWF (setPageC c k v w) := by
  obtain ⟨hn, hnt, hlen, hsame⟩ := h
  have hnpre : (alKeys (alRemove c.page_cache k ++ [(k, v)])).Nodup := by
    rw [alKeys_append, alKeys_singleton, List.nodup_append]
    refine ⟨nodup_alKeys_alRemove hn, List.nodup_singleton _, ?_⟩
    intro j hj
    rw [List.mem_singleton]
    intro hjk
    subst hjk
    exact not_mem_alKeys_alRemove hn hj
  have hntpre : (alKeys (alSet c.text_cache k w)).Nodup := nodup_alKeys_alSet hnt
  have hsamepre : ∀ j, j ∈ alKeys (alRemove c.page_cache k ++ [(k, v)]) ↔
      j ∈ alKeys (alSet c.text_cache k w) := by
    intro j
    rw [alKeys_append, alKeys_singleton, List.mem_append, mem_alKeys_alSet, List.mem_singleton]
    by_cases hjk : j = k
    · simp [hjk]
    · rw [mem_alKeys_alRemove_of_ne hjk, hsame j]
  obtain ⟨hiff, hnt2⟩ :=
    cleanupOldCache_keys_iff c.max_size _ _ hnpre hntpre hsamepre
  have hcleaned : (setPageC c k v w).page_cache =
      (cleanupOldCache c.max_size (alRemove c.page_cache k ++ [(k, v)])
        (alSet c.text_cache k w)).1 := by
    simp [setPageC]
  have htcleaned : (setPageC c k v w).text_cache =
      (cleanupOldCache c.max_size (alRemove c.page_cache k ++ [(k, v)])
        (alSet c.text_cache k w)).2 := by
    simp [setPageC]
  refine ⟨?_, ?_, setPageC_length_le c k v w, ?_⟩
  · rw [setPageC_page_cache, alKeys_drop]
    exact (List.drop_sublist _ _).nodup hnpre
  · rw [htcleaned]
    exact hnt2
  · intro j
    rw [hcleaned, htcleaned, cleanupOldCache_fst]
    rw [← cleanupOldCache_fst c.max_size _ (alSet c.text_cache k w)]
    exact hiff j

theorem cacheWF_getPageC {c : PageCacheM} (h : CacheWF c) (k : Nat) :
    CacheWF (getPageC c k).1 := by
  obtain ⟨hn, hnt, hlen, hsame⟩ := h
  cases hl : alLookup c.page_cache k with
  | none =>
    rw [show (getPageC c k).1 = c from by simp [getPageC, hl]]
    exact ⟨hn, hnt, hlen, hsame⟩
  | some v =>
    have hk : k ∈ alKeys c.page_cache := alLookup_mem_alKeys hl
    have hpos : 0 < c.page_cache.length := by
      refine List.length_pos.mpr ?_
      intro h0
      rw [h0] at hk
      simp [alKeys_nil] at hk
    rw [show (getPageC c k).1 =
        { c with page_cache := alRemove c.page_cache k ++ [(k, v)] } from by
      simp [getPageC, hl]]
    refine ⟨?_, hnt, ?_, fun j => ?_⟩
    · rw [alKeys_append, alKeys_singleton, List.nodup_append]
      refine ⟨nodup_alKeys_alRemove hn, List.nodup_singleton _, ?_⟩
      intro j hj
      rw [List.mem_singleton]
      intro hjk
      subst hjk
      exact not_mem_alKeys_alRemove hn hj
    · show (alRemove c.page_cache k ++ [(k, v)]).length ≤ c.max_size
      rw [List.length_append, length_alRemove_of_mem hk]
      simp only [List.length_singleton]
      omega
    · show j ∈ alKeys (alRemove c.page_cache k ++ [(k, v)]) ↔ j ∈ alKeys c.text_cache
      rw [alKeys_append, alKeys_singleton, List.mem_append, List.mem_singleton, ← hsame j]
      by_cases hjk : j = k
      · simp [hjk, hk]
      · rw [mem_alKeys_alRemove_of_ne hjk]
        simp [hjk]

theorem cacheWF_clearC {c : PageCacheM} (_h : CacheWF c) : CacheWF (clearC c) := by
  refine ⟨by simp [clearC, alKeys_nil], by simp [clearC, alKeys_nil],
    by simp [clearC], fun j => ?_⟩
  simp [clearC, alKeys_nil]

theorem cacheWF_applyCacheOp {c : PageCacheM} (h : CacheWF c) (op : CacheOp) :
    CacheWF (applyCacheOp c op) := by
  cases op with
  | set k v w => exact cacheWF_setPageC h k v w
  | get k => exact cacheWF_getPageC h k
  | clear => exact cacheWF_clearC h

theorem cacheWF_of_reachable {c : PageCacheM} (h : CacheReachable c) : CacheWF c := by
  obtain ⟨m, ops, rfl⟩ := h
  suffices hgen : ∀ (ops : List CacheOp) (c0 : PageCacheM), CacheWF c0 →
      CacheWF (ops.foldl applyCacheOp c0) by
    exact hgen ops (emptyCache m) (cacheWF_empty m)
  intro ops
  induction ops with
  | nil => intro c0 h0; exact h0
  | cons op rest ih =>
    intro c0 h0
    exact ih _ (cacheWF_applyCacheOp h0 op)

/-- C1. LRU page cache: on every reachable cache state, `set_page` leaves at
most `max_size` entries; any entry it evicts is the one at the stale end of
the recency order (the entry least recently touched by `get_page`/`set_page`);
and with capacity 2, `set_page 0; set_page 1; set_page 2` leaves exactly pages
`[1, 2]` cached (page 0 evicted). -/
theorem cache_bound_lru_eviction :
    ∀ c : PageCacheM, CacheReachable c →
      (∀ k v w, (setPageC c k v w).page_cache.length ≤ c.max_size) ∧
      (∀ k v w j, j ∈ alKeys c.page_cache →
        j ∉ alKeys (setPageC c k v w).page_cache →
        ∃ p rest, c.page_cache = p :: rest ∧ j = p.1) ∧
      (alKeys (cacheRun 2 [.set 0 100 0, .set 1 101 0, .set 2 102 0]).page_cache
        = [1, 2] ∧
       0 ∉ alKeys (cacheRun 2 [.set 0 100 0, .set 1 101 0, .set 2 102 0]).page_cache) := by
  intro c hreach
  obtain ⟨_, _, hlen, _⟩ := cacheWF_of_reachable hreach
  refine ⟨fun k v w => setPageC_length_le c k v w,
    fun k v w j hj hout => setPageC_mem_keys c k v w hlen hj hout, by decide, by decide⟩

theorem cache_bound_lru_eviction_witness :
    CacheReachable (cacheRun 2 [.set 0 100 0, .set 1 101 0]) ∧
    (setPageC (cacheRun 2 [.set 0 100 0, .set 1 101 0]) 2 102 0).page_cache.length ≤
      (cacheRun 2 [.set 0 100 0, .set 1 101 0]).max_size := by
  refine ⟨⟨2, [.set 0 100 0, .set 1 101 0], rfl⟩, ?_⟩
  exact (cache_bound_lru_eviction _ ⟨2, [.set 0 100 0, .set 1 101 0], rfl⟩).1 2 102 0

/-- C9. The pixmap store and the word-list store of a `PageCache` hold
identical key sets after every operation sequence from an empty cache:
`set_page` inserts into both, LRU eviction deletes from both, `clear`
empties both. -/
theorem cache_keysets_agree :
    ∀ c : PageCacheM, CacheReachable c →
      ∀ j, j ∈ alKeys c.page_cache ↔ j ∈ alKeys c.text_cache := by
  intro c hreach
  exact (cacheWF_of_reachable hreach).2.2.2

theorem cache_keysets_agree_witness :
    CacheReachable (cacheRun 2 [.set 0 100 7, .set 1 101 8, .set 2 102 9]) ∧
    (1 ∈ alKeys (cacheRun 2 [.set 0 100 7, .set 1 101 8, .set 2 102 9]).page_cache ↔
     1 ∈ alKeys (cacheRun 2 [.set 0 100 7, .set 1 101 8, .set 2 102 9]).text_cache) := by
  refine ⟨⟨2, [.set 0 100 7, .set 1 101 8, .set 2 102 9], rfl⟩, ?_⟩
  exact cache_keysets_agree _ ⟨2, [.set 0 100 7, .set 1 101 8, .set 2 102 9], rfl⟩ 1

theorem renderPageM_of_mem {st : RenderMgr} {i : Nat} (h : i ∈ st.pending) :
    renderPageM st i = (st, false) := by
  simp [renderPageM, h]

theorem mem_setAdd_self (l : List Nat) (i : Nat) : i ∈ setAdd l i := by
  by_cases h : i ∈ l <;> simp [setAdd, h]

theorem mem_setAdd_iff {l : List Nat} {i j : Nat} : j ∈ setAdd l i ↔ j = i ∨ j ∈ l := by
  by_cases hi : i ∈ l
  · simp only [setAdd, if_pos hi]
    constructor
    · exact Or.inr
    · rintro (rfl | h)
      · exact hi
      · exact h
  · simp [setAdd, hi]

theorem nodup_setAdd {l : List Nat} (i : Nat) (h : l.Nodup) : (setAdd l i).Nodup := by
  by_cases hi : i ∈ l <;> simp [setAdd, hi, h]

theorem mgrWF_init : MgrWF mgrInit := by
  refine ⟨List.nodup_nil, List.nodup_nil, fun j => ?_⟩
  simp [mgrInit]

theorem mgrWF_step {st : RenderMgr} (h : MgrWF st) (e : MgrEvent) :
    MgrWF (mgrStep st e) := by
  obtain ⟨hp, ht, hiff⟩ := h
  cases e with
  | dispatch i =>
    show MgrWF (renderPageM st i).1
    by_cases hc : st.shuttingDown ∨ i ∈ st.pending ∨ i ∈ st.threads
    · rw [show (renderPageM st i).1 = st from by
        simp only [renderPageM]; rw [if_pos hc]]
      exact ⟨hp, ht, hiff⟩
    · rw [show (renderPageM st i).1 =
          { st with pending := setAdd st.pending i, threads := setAdd st.threads i } from by
        simp only [renderPageM]; rw [if_neg hc]]
      refine ⟨nodup_setAdd i hp, nodup_setAdd i ht, fun j => ?_⟩
      show j ∈ setAdd st.pending i ↔ j ∈ setAdd st.threads i
      rw [mem_setAdd_iff, mem_setAdd_iff, hiff j]
  | finish i =>
    show MgrWF (onThreadFinishedM st i)
    refine ⟨hp.erase i, ht.erase i, fun j => ?_⟩
    show j ∈ st.pending.erase i ↔ j ∈ st.threads.erase i
    rw [hp.mem_erase_iff, ht.mem_erase_iff, hiff j]

theorem mgrWF_of_reachable {st : RenderMgr} (h : MgrReachable st) : MgrWF st := by
  obtain ⟨es, rfl⟩ := h
  suffices hgen : ∀ (es : List MgrEvent) (s0 : RenderMgr), MgrWF s0 →
      MgrWF (es.foldl mgrStep s0) by
    exact hgen es mgrInit mgrWF_init
  intro es
  induction es with
  | nil => intro s0 h0; exact h0
  | cons e rest ih =>
    intro s0 h0
    exact ih _ (mgrWF_step h0 e)

/-- C2. Single-flight render dispatch: in every reachable manager state the
pending set holds each page index at most once; dispatching an index that is
already pending changes nothing and starts no thread; a dispatch never
removes a pending index (only `_on_thread_finished` does, and it always
does); and two back-to-back dispatches of the same page make the second a
strict no-op. -/
theorem render_single_flight :
    ∀ st : RenderMgr, MgrReachable st →
      st.pending.Nodup ∧
      (∀ i, i ∈ st.pending → renderPageM st i = (st, false)) ∧
      (∀ i j, j ∈ st.pending → j ∈ ((renderPageM st i).1).pending) ∧
      (∀ i, i ∉ (onThreadFinishedM st i).pending) ∧
      (∀ i, renderPageM (renderPageM st i).1 i = ((renderPageM st i).1, false)) := by
  intro st hreach
  obtain ⟨hp, ht, hiff⟩ := mgrWF_of_reachable hreach
  refine ⟨hp, fun i h => renderPageM_of_mem h, ?_, ?_, ?_⟩
  · intro i j hj
    by_cases hc : st.shuttingDown ∨ i ∈ st.pending ∨ i ∈ st.threads
    · rw [show (renderPageM st i).1 = st from by
        simp only [renderPageM]; rw [if_pos hc]]
      exact hj
    · rw [show (renderPageM st i).1 =
          { st with pending := setAdd st.pending i, threads := setAdd st.threads i } from by
        simp only [renderPageM]; rw [if_neg hc]]
      show j ∈ setAdd st.pending i
      exact mem_setAdd_iff.mpr (Or.inr hj)
  · intro i
    show i ∉ st.pending.erase i
    intro hmem
    exact (hp.mem_erase_iff.mp hmem).1 rfl
  · intro i
    by_cases hc : st.shuttingDown ∨ i ∈ st.pending ∨ i ∈ st.threads
    · have hst1 : (renderPageM st i).1 = st := by
        simp only [renderPageM]; rw [if_pos hc]
      rw [hst1]
      simp only [renderPageM]; rw [if_pos hc]
    · have hst1 : (renderPageM st i).1 =
          { st with pending := setAdd st.pending i, threads := setAdd st.threads i } := by
        simp only [renderPageM]; rw [if_neg hc]
      rw [hst1]
      exact renderPageM_of_mem (mem_setAdd_self st.pending i)

theorem render_single_flight_witness :
    MgrReachable mgrInit ∧
    renderPageM (renderPageM mgrInit 5).1 5 = ((renderPageM mgrInit 5).1, false) := by
  refine ⟨⟨[], rfl⟩, ?_⟩
  exact (render_single_flight mgrInit ⟨[], rfl⟩).2.2.2.2 5

theorem visiblePagesAux_mem (top bottom : ℚ) :
    ∀ (pages : List (ℚ × ℚ)) (n i : Nat),
      i ∈ visiblePagesAux top bottom n pages ↔
        ∃ j y h, pages.get? j = some (y, h) ∧ i = n + j ∧
          (y - VIEWPORT_BUFFER < bottom ∧ y + h + VIEWPORT_BUFFER > top) := by
  intro pages
  induction pages with
  | nil =>
    intro n i
    simp [visiblePagesAux]
  | cons p rest ih =>
    intro n i
    obtain ⟨y, h⟩ := p
    by_cases hc : y - VIEWPORT_BUFFER < bottom ∧ y + h + VIEWPORT_BUFFER > top
    · rw [show visiblePagesAux top bottom n ((y, h) :: rest) =
          n :: visiblePagesAux top bottom (n + 1) rest from by
        simp only [visiblePagesAux]; rw [if_pos hc]]
      rw [List.mem_cons, ih (n + 1) i]
      constructor
      · rintro (rfl | ⟨j, y', h', hj, rfl, hcond⟩)
        · exact ⟨0, y, h, rfl, by omega, hc⟩
        · exact ⟨j + 1, y', h', by simpa using hj, by omega, hcond⟩
      · rintro ⟨j, y', h', hj, rfl, hcond⟩
        cases j with
        | zero => exact Or.inl (by omega)
        | succ j =>
          refine Or.inr ⟨j, y', h', by simpa using hj, by omega, hcond⟩
    · rw [show visiblePagesAux top bottom n ((y, h) :: rest) =
          visiblePagesAux top bottom (n + 1) rest from by
        simp only [visiblePagesAux]; rw [if_neg hc]]
      rw [ih (n + 1) i]
      constructor
      · rintro ⟨j, y', h', hj, rfl, hcond⟩
        exact ⟨j + 1, y', h', by simpa using hj, by omega, hcond⟩
      · rintro ⟨j, y', h', hj, rfl, hcond⟩
        cases j with
        | zero =>
          exfalso
          apply hc
          simp only [List.get?_cons_zero, Option.some.injEq, Prod.mk.injEq] at hj
          obtain ⟨rfl, rfl⟩ := hj
          exact hcond
        | succ j =>
          exact ⟨j, y', h', by simpa using hj, by omega, hcond⟩

/-- C5 (amended: the default buffer constant is `VIEWPORT_BUFFER = 50` px,
not 100 px).  A page is returned by `_get_visible_pages` exactly when
`(page_bottom + buffer) > viewport_top` and `(page_top - buffer) <
viewport_bottom` with buffer 50. -/
theorem visible_pages_classification :
    ∀ (pages : List (ℚ × ℚ)) (top bottom : ℚ) (i : Nat),
      i ∈ getVisiblePages pages top bottom ↔
        ∃ y h, pages.get? i = some (y, h) ∧
          visibleSpec VIEWPORT_BUFFER y h top bottom := by
  intro pages top bottom i
  rw [getVisiblePages, visiblePagesAux_mem]
  constructor
  · rintro ⟨j, y, h, hj, rfl, hcond⟩
    exact ⟨y, h, by simpa using hj, hcond.2, hcond.1⟩
  · rintro ⟨y, h, hj, hcond⟩
    exact ⟨i, y, h, hj, by omega, hcond.2, hcond.1⟩

/-- C5 counterexample: with the claimed buffer of 100 px, a page spanning
y ∈ [0, 100] against a viewport [160, 300] would satisfy the claimed
visibility test, but the code (whose `VIEWPORT_BUFFER` is 50) does not
return it. -/
theorem visible_pages_buffer100_counterexample :
    visibleSpec 100 0 100 160 300 ∧ 0 ∉ getVisiblePages [(0, 100)] 160 300 := by
  constructor
  · constructor <;> norm_num [visibleSpec]
  · intro hmem
    rcases (visible_pages_classification [(0, 100)] 160 300 0).mp hmem with ⟨y, h, hj, hcond⟩
    simp only [List.get?_cons_zero, Option.some.injEq, Prod.mk.injEq] at hj
    obtain ⟨rfl, rfl⟩ := hj
    rcases hcond with ⟨hcond, _⟩
    norm_num [VIEWPORT_BUFFER] at hcond

theorem onPreviewRendered_of_has {st : ViewDisplay} {i pix : Nat}
    (h : hasPageC st.cache i = true) : onPreviewRendered st i pix = st := by
  simp only [onPreviewRendered]
  by_cases hc : st.shuttingDown ∨ st.items.length ≤ i
  · rw [if_pos hc]
  · rw [if_neg hc]
    simp [h]

/-- C6. A preview result is applied to the page item only if the cache has
no entry for that index when the result arrives; whenever the cache holds a
(final-quality) entry, `_on_preview_rendered` leaves the display unchanged. -/
theorem preview_not_clobber_final :
    ∀ (st : ViewDisplay) (i pix : Nat),
      (hasPageC st.cache i = true → onPreviewRendered st i pix = st) ∧
      ((onPreviewRendered st i pix).items ≠ st.items → hasPageC st.cache i = false) := by
  intro st i pix
  refine ⟨fun h => onPreviewRendered_of_has h, fun hne => ?_⟩
  cases hhb : hasPageC st.cache i
  · rfl
  · exact absurd (by rw [onPreviewRendered_of_has hhb]) hne

theorem preview_not_clobber_final_witness :
    hasPageC (setPageC (emptyCache 6) 3 9 9) 3 = true ∧
    onPreviewRendered ⟨false, setPageC (emptyCache 6) 3 9 9, [none, none, none, none]⟩ 3 7 =
      ⟨false, setPageC (emptyCache 6) 3 9 9, [none, none, none, none]⟩ := by
  refine ⟨by decide, ?_⟩
  exact (preview_not_clobber_final
    ⟨false, setPageC (emptyCache 6) 3 9 9, [none, none, none, none]⟩ 3 7).1 (by decide)

/-- C8 counterexample: a high-quality task with zoom 1.0, requested DPI 300,
a target width of 1200 on a page 600 pt wide rasters at scale
`(1200/600) * (300/72) = 25/3`, not the claimed `1.0 * (300/72) = 25/6`:
the stored target width overrides the zoom as base scale. -/
theorem render_scale_claim_counterexample :
    (calcRenderParams 1 (threadDpi 300) (some 1200) true 600).2 ≠
      claimScaleC8 1 (threadDpi 300) := by
  have ht : threadDpi 300 = 300 := max_eq_left (by norm_num)
  rw [ht]
  simp only [calcRenderParams, claimScaleC8, if_true]
  have h12 : (if (1200 : ℚ) ≠ 0 then (1200 : ℚ) / 600 else 1) = 2 := by
    rw [if_pos (by norm_num : (1200 : ℚ) ≠ 0)]
    norm_num
  simp only [h12]
  rw [if_neg (by norm_num : ¬ (2 : ℚ) ≤ 1), if_pos (by norm_num : (2 : ℚ) ≤ 2)]
  rw [if_pos (le_refl (1 : ℚ))]
  rw [max_eq_left (by norm_num : (250 : ℚ) ≤ 300), max_eq_left (by norm_num : (200 : ℚ) ≤ 300)]
  norm_num

/-- C8 (amended): for every high-quality render task the raster scale is
`S * (dpi'/72)` where the base scale `S` is `target_width / page_width` when
a truthy target width was stored (else the zoom factor), and `dpi'` raises
the stored DPI (the requested DPI clamped to at least 150) to the floors
200 / 250 / 300 keyed on `S ≤ 1.0` / `S ≤ 2.0` / otherwise; when no target
width is stored this coincides with the claimed `zoom * (dpi/72)` formula. -/
theorem render_scale_high_quality :
    ∀ (zoom dpi : ℚ) (targetWidth : Option ℚ) (pageWidth : ℚ),
      (calcRenderParams zoom (threadDpi dpi) targetWidth true pageWidth).2 =
        specScaleC8 zoom (threadDpi dpi) targetWidth pageWidth ∧
      (calcRenderParams zoom (threadDpi dpi) none true pageWidth).2 =
        claimScaleC8 zoom (threadDpi dpi) := by
  intro zoom dpi tw pw
  constructor
  · cases tw with
    | none => rfl
    | some w => rfl
  · rfl

/-- C10. `set_zoom_internal` with a loaded document first clamps the factor
to `[MIN_ZOOM, MAX_ZOOM] = [0.3, 5.0]`; when the clamped factor differs from
the current zoom by less than 0.01 the call returns before touching
anything: zoom, layout and cache are unchanged and no re-render is
dispatched. -/
theorem set_zoom_small_delta_noop :
    ∀ (st : ZoomView) (z : ℚ), st.docLoaded = true →
      |max MIN_ZOOM (min z MAX_ZOOM) - st.current_zoom| < 1 / 100 →
      setZoomInternal st z = (st, false) := by
  intro st z hdoc hsmall
  simp only [setZoomInternal, hdoc, not_true, Bool.false_eq_true, if_false]
  rw [if_pos hsmall]

theorem zoomClampNear1 : |max MIN_ZOOM (min (201 / 200 : ℚ) MAX_ZOOM) - 1| < 1 / 100 := by
  rw [MIN_ZOOM, MAX_ZOOM, min_eq_left (by norm_num), max_eq_right (by norm_num)]
  rw [show (201 / 200 : ℚ) - 1 = 1 / 200 from by norm_num]
  rw [abs_of_pos (by norm_num)]
  norm_num

theorem set_zoom_small_delta_noop_witness :
    (⟨true, 1, 1, [(612, 792)], [], [], emptyCache 6⟩ : ZoomView).docLoaded = true ∧
    |max MIN_ZOOM (min (201 / 200 : ℚ) MAX_ZOOM) -
      (⟨true, 1, 1, [(612, 792)], [], [], emptyCache 6⟩ : ZoomView).current_zoom| < 1 / 100 ∧
    setZoomInternal ⟨true, 1, 1, [(612, 792)], [], [], emptyCache 6⟩ (201 / 200) =
      (⟨true, 1, 1, [(612, 792)], [], [], emptyCache 6⟩, false) := by
  exact ⟨rfl, zoomClampNear1, set_zoom_small_delta_noop _ _ rfl zoomClampNear1⟩

theorem primaryPassAux_mem_fst (sx ex sy ey : Int) :
    ∀ (words : List VWord) (n i : Nat),
      i ∈ (primaryPassAux sx ex sy ey n words).map (·.1) ↔
        ∃ j w, words.get? j = some w ∧ i = n + j ∧ centerInRect w sx ex sy ey := by
  intro words
  induction words with
  | nil =>
    intro n i
    simp [primaryPassAux]
  | cons w rest ih =>
    intro n i
    by_cases hc : sx ≤ w.display_rect.centerX ∧ w.display_rect.centerX ≤ ex ∧
        sy ≤ w.display_rect.centerY ∧ w.display_rect.centerY ≤ ey
    · rw [show primaryPassAux sx ex sy ey n (w :: rest) =
          (n, w.page_num, w.display_rect.centerY, w.display_rect.centerX) ::
            primaryPassAux sx ex sy ey (n + 1) rest from by
        simp only [primaryPassAux]; rw [if_pos hc]]
      simp only [List.map_cons, List.mem_cons]
      rw [ih (n + 1) i]
      constructor
      · rintro (rfl | ⟨j, w', hj, rfl, hcond⟩)
        · exact ⟨0, w, rfl, by omega, hc⟩
        · exact ⟨j + 1, w', by simpa using hj, by omega, hcond⟩
      · rintro ⟨j, w', hj, rfl, hcond⟩
        cases j with
        | zero => exact Or.inl (by omega)
        | succ j => exact Or.inr ⟨j, w', by simpa using hj, by omega, hcond⟩
    · rw [show primaryPassAux sx ex sy ey n (w :: rest) =
          primaryPassAux sx ex sy ey (n + 1) rest from by
        simp only [primaryPassAux]; rw [if_neg hc]]
      rw [ih (n + 1) i]
      constructor
      · rintro ⟨j, w', hj, rfl, hcond⟩
        exact ⟨j + 1, w', by simpa using hj, by omega, hcond⟩
      · rintro ⟨j, w', hj, rfl, hcond⟩
        cases j with
        | zero =>
          exfalso
          apply hc
          simp only [List.get?_cons_zero, Option.some.injEq] at hj
          rw [hj]
          exact hcond
        | succ j => exact ⟨j, w', by simpa using hj, by omega, hcond⟩

theorem fallbackPassAux_mem_fst (sel : QRectI) :
    ∀ (words : List VWord) (n i : Nat),
      i ∈ (fallbackPassAux sel n words).map (·.1) ↔
        ∃ j w, words.get? j = some w ∧ i = n + j ∧
          QRectI.intersects sel w.display_rect = true := by
  intro words
  induction words with
  | nil =>
    intro n i
    simp [fallbackPassAux]
  | cons w rest ih =>
    intro n i
    by_cases hc : QRectI.intersects sel w.display_rect = true
    · rw [show fallbackPassAux sel n (w :: rest) =
          (n, w.page_num, w.display_rect.centerY, w.display_rect.centerX) ::
            fallbackPassAux sel (n + 1) rest from by
        simp only [fallbackPassAux]; rw [if_pos hc]]
      simp only [List.map_cons, List.mem_cons]
      rw [ih (n + 1) i]
      constructor
      · rintro (rfl | ⟨j, w', hj, rfl, hcond⟩)
        · exact ⟨0, w, rfl, by omega, hc⟩
        · exact ⟨j + 1, w', by simpa using hj, by omega, hcond⟩
      · rintro ⟨j, w', hj, rfl, hcond⟩
        cases j with
        | zero => exact Or.inl (by omega)
        | succ j => exact Or.inr ⟨j, w', by simpa using hj, by omega, hcond⟩
    · rw [show fallbackPassAux sel n (w :: rest) =
          fallbackPassAux sel (n + 1) rest from by
        simp only [fallbackPassAux]; rw [if_neg hc]]
      rw [ih (n + 1) i]
      constructor
      · rintro ⟨j, w', hj, rfl, hcond⟩
        exact ⟨j + 1, w', by simpa using hj, by omega, hcond⟩
      · rintro ⟨j, w', hj, rfl, hcond⟩
        cases j with
        | zero =>
          exfalso
          apply hc
          simp only [List.get?_cons_zero, Option.some.injEq] at hj
          rw [hj]
          exact hcond
        | succ j => exact ⟨j, w', by simpa using hj, by omega, hcond⟩

theorem updateTextSelection_mem (startPos currentPos : Int × Int) (words : List VWord)
    (i : Nat) :
    i ∈ updateTextSelection startPos currentPos words ↔
      i ∈ ((if primaryPass words (min startPos.1 currentPos.1) (max startPos.1 currentPos.1)
              (min startPos.2 currentPos.2) (max startPos.2 currentPos.2) = []
            then fallbackPass words
              ⟨min startPos.1 currentPos.1, min startPos.2 currentPos.2,
               max startPos.1 currentPos.1 - min startPos.1 currentPos.1,
               max startPos.2 currentPos.2 - min startPos.2 currentPos.2⟩
            else primaryPass words (min startPos.1 currentPos.1)
              (max startPos.1 currentPos.1) (min startPos.2 currentPos.2)
              (max startPos.2 currentPos.2)).map (·.1)) := by
  unfold updateTextSelection
  exact ((List.perm_insertionSort selKeyLt _).map (·.1)).mem_iff

/-- C4. `_update_text_selection` selects exactly the words whose display-rect
center lies inside the normalized drag rectangle; only when that primary set
is empty does it instead select exactly the words whose display rect
intersects the rectangle.  In particular a drag rectangle containing no word
center but overlapping two words' boxes selects exactly those two words. -/
theorem selection_primary_fallback :
    (∀ (startPos currentPos : Int × Int) (words : List VWord) (i : Nat),
      (primaryPass words (min startPos.1 currentPos.1) (max startPos.1 currentPos.1)
          (min startPos.2 currentPos.2) (max startPos.2 currentPos.2) ≠ [] →
        (i ∈ updateTextSelection startPos currentPos words ↔
          ∃ w, words.get? i = some w ∧
            centerInRect w (min startPos.1 currentPos.1) (max startPos.1 currentPos.1)
              (min startPos.2 currentPos.2) (max startPos.2 currentPos.2))) ∧
      (primaryPass words (min startPos.1 currentPos.1) (max startPos.1 currentPos.1)
          (min startPos.2 currentPos.2) (max startPos.2 currentPos.2) = [] →
        (i ∈ updateTextSelection startPos currentPos words ↔
          ∃ w, words.get? i = some w ∧
            QRectI.intersects
              ⟨min startPos.1 currentPos.1, min startPos.2 currentPos.2,
               max startPos.1 currentPos.1 - min startPos.1 currentPos.1,
               max startPos.2 currentPos.2 - min startPos.2 currentPos.2⟩
              w.display_rect = true))) ∧
    (primaryPass [⟨0, ⟨0, 0, 10, 10⟩, "alpha"⟩, ⟨0, ⟨20, 0, 10, 10⟩, "beta"⟩] 8 21 2 6
        = [] ∧
     updateTextSelection (8, 2) (21, 6)
        [⟨0, ⟨0, 0, 10, 10⟩, "alpha"⟩, ⟨0, ⟨20, 0, 10, 10⟩, "beta"⟩] = [0, 1]) := by
  refine ⟨?_, by decide, by decide⟩
  intro startPos currentPos words i
  constructor
  · intro hne
    rw [updateTextSelection_mem, if_neg hne]
    rw [primaryPass, primaryPassAux_mem_fst]
    constructor
    · rintro ⟨j, w, hj, rfl, hcond⟩
      exact ⟨w, by simpa using hj, hcond⟩
    · rintro ⟨w, hj, hcond⟩
      exact ⟨i, w, hj, by omega, hcond⟩
  · intro hemp
    rw [updateTextSelection_mem, if_pos hemp]
    rw [fallbackPass, fallbackPassAux_mem_fst]
    constructor
    · rintro ⟨j, w, hj, rfl, hcond⟩
      exact ⟨w, by simpa using hj, hcond⟩
    · rintro ⟨w, hj, hcond⟩
      exact ⟨i, w, hj, by omega, hcond⟩

theorem selection_primary_fallback_witness :
    primaryPass [⟨0, ⟨0, 0, 10, 10⟩, "alpha"⟩, ⟨0, ⟨20, 0, 10, 10⟩, "beta"⟩] 8 21 2 6
      = [] ∧
    (0 ∈ updateTextSelection (8, 2) (21, 6)
        [⟨0, ⟨0, 0, 10, 10⟩, "alpha"⟩, ⟨0, ⟨20, 0, 10, 10⟩, "beta"⟩] ↔
      ∃ w, [(⟨0, ⟨0, 0, 10, 10⟩, "alpha"⟩ : VWord), ⟨0, ⟨20, 0, 10, 10⟩, "beta"⟩].get? 0
          = some w ∧
        QRectI.intersects ⟨8, 2, 13, 4⟩ w.display_rect = true) := by
  refine ⟨by decide, ?_⟩
  exact ((selection_primary_fallback.1 (8, 2) (21, 6)
    [⟨0, ⟨0, 0, 10, 10⟩, "alpha"⟩, ⟨0, ⟨20, 0, 10, 10⟩, "beta"⟩] 0).2 (by decide))

theorem pageMarker_data (p : Nat) :
    (pageMarker p).data =
      ("\n--- 第 ".data ++ (toString (p + 1)).data) ++ " 页 ---\n".data := rfl

theorem pageMarker_length (p : Nat) : 14 ≤ (pageMarker p).data.length := by
  have h := congrArg List.length (pageMarker_data p)
  rw [List.length_append, List.length_append] at h
  rw [h]
  have h1 : ("\n--- 第 ".data).length = 7 := by decide
  have h2 : (" 页 ---\n".data).length = 7 := by decide
  omega

theorem pageMarker_ne_newline (p : Nat) : pageMarker p ≠ "\n" := by
  intro h
  have hl : (pageMarker p).data.length = 1 := by rw [h]; decide
  have := pageMarker_length p
  omega

theorem pageMarker_ne_space (p : Nat) : pageMarker p ≠ " " := by
  intro h
  have hl : (pageMarker p).data.length = 1 := by rw [h]; decide
  have := pageMarker_length p
  omega

theorem sepFor_some (texts : List String) (lp : Nat) (ly : Int) (p : Nat) (y : Int) :
    sepFor texts (some (lp, ly)) p y =
      if p ≠ lp then [pageMarker p]
      else if 15 < (y - ly).natAbs then ["\n"]
      else spaceSep texts := rfl

theorem spaceSep_cases (texts : List String) :
    spaceSep texts = [] ∨ spaceSep texts = [" "] := by
  cases hlast : texts.getLast? with
  | none => exact Or.inl (by simp [spaceSep, hlast])
  | some t =>
    by_cases h : endsWS t = true
    · exact Or.inl (by simp [spaceSep, hlast, h])
    · exact Or.inr (by simp [spaceSep, hlast, h])

theorem spaceSep_eq_space_iff (texts : List String) :
    spaceSep texts = [" "] ↔ ∃ t, texts.getLast? = some t ∧ endsWS t = false := by
  cases hlast : texts.getLast? with
  | none => simp [spaceSep, hlast]
  | some t =>
    by_cases h : endsWS t = true
    · simp [spaceSep, hlast, h]
    · simp only [Bool.not_eq_true] at h
      simp [spaceSep, hlast, h]

theorem sepFor_marker_iff (texts : List String) (lp : Nat) (ly : Int) (p : Nat) (y : Int) :
    sepFor texts (some (lp, ly)) p y = [pageMarker p] ↔ p ≠ lp := by
  rw [sepFor_some]
  by_cases hp : p = lp
  · rw [if_neg (fun hc => hc hp)]
    constructor
    · intro heq
      exfalso
      by_cases hg : 15 < (y - ly).natAbs
      · rw [if_pos hg] at heq
        injection heq with h1 _
        exact pageMarker_ne_newline p h1.symm
      · rw [if_neg hg] at heq
        rcases spaceSep_cases texts with hs | hs
        · rw [hs] at heq
          exact List.noConfusion heq
        · rw [hs] at heq
          injection heq with h1 _
          exact pageMarker_ne_space p h1.symm
    · intro hne
      exact absurd hp hne
  · rw [if_pos hp]
    simp [hp]

theorem sepFor_newline_iff (texts : List String) (lp : Nat) (ly : Int) (p : Nat) (y : Int) :
    sepFor texts (some (lp, ly)) p y = ["\n"] ↔ p = lp ∧ 15 < (y - ly).natAbs := by
  rw [sepFor_some]
  by_cases hp : p = lp
  · rw [if_neg (fun hc => hc hp)]
    by_cases hg : 15 < (y - ly).natAbs
    · rw [if_pos hg]
      simp [hp, hg]
    · rw [if_neg hg]
      constructor
      · intro heq
        exfalso
        rcases spaceSep_cases texts with hs | hs
        · rw [hs] at heq
          exact List.noConfusion heq
        · rw [hs] at heq
          injection heq with h1 _
          exact absurd h1 (by decide)
      · rintro ⟨_, hg2⟩
        exact absurd hg2 hg
  · rw [if_pos hp]
    constructor
    · intro heq
      injection heq with h1 _
      exact absurd h1 (pageMarker_ne_newline p)
    · rintro ⟨hpe, _⟩
      exact absurd hpe hp

theorem sepFor_space_iff (texts : List String) (lp : Nat) (ly : Int) (p : Nat) (y : Int) :
    sepFor texts (some (lp, ly)) p y = [" "] ↔
      p = lp ∧ (y - ly).natAbs ≤ 15 ∧
        ∃ t, texts.getLast? = some t ∧ endsWS t = false := by
  rw [sepFor_some]
  by_cases hp : p = lp
  · rw [if_neg (fun hc => hc hp)]
    by_cases hg : 15 < (y - ly).natAbs
    · rw [if_pos hg]
      constructor
      · intro heq
        injection heq with h1 _
        exact absurd h1 (by decide)
      · rintro ⟨_, hle, _⟩
        omega
    · rw [if_neg hg]
      rw [spaceSep_eq_space_iff]
      constructor
      · intro h
        exact ⟨hp, by omega, h⟩
      · rintro ⟨_, _, h⟩
        exact h
  · rw [if_pos hp]
    constructor
    · intro heq
      injection heq with h1 _
      exact absurd h1 (pageMarker_ne_space p)
    · rintro ⟨hpe, _⟩
      exact absurd hpe hp

theorem joinAll_concat (l : List String) (t : String) :
    joinAll (l ++ [t]) = joinAll l ++ t := by
  unfold joinAll
  rw [List.foldl_append]
  rfl

theorem data_ne_nil_of_ne_empty {t : String} (h : t ≠ "") : t.data ≠ [] := by
  intro hd
  apply h
  cases t with
  | mk d => exact congrArg String.mk hd

theorem endsWS_joinAll (texts : List String) (h : ∀ t ∈ texts, t ≠ "") :
    (endsWS (joinAll texts) = true ↔
      ∃ t, texts.getLast? = some t ∧ endsWS t = true) := by
  rcases List.eq_nil_or_concat texts with rfl | ⟨l, t, rfl⟩
  · constructor
    · intro hw
      exact absurd hw (by decide)
    · rintro ⟨t, ht, _⟩
      simp at ht
  · rw [List.concat_eq_append] at h ⊢
    rw [joinAll_concat]
    have hne : t ≠ "" := h t (by simp)
    have hlast : (l ++ [t]).getLast? = some t := List.getLast?_concat l
    rw [hlast]
    have hend : endsWS (joinAll l ++ t) = endsWS t := by
      unfold endsWS
      have hd : (joinAll l ++ t).data = (joinAll l).data ++ t.data := rfl
      rw [hd, List.getLast?_append_of_ne_nil _ (data_ne_nil_of_ne_empty hne)]
    rw [hend]
    simp

theorem head?_dropWhile_not (p : Char → Bool) :
    ∀ (l : List Char) {c : Char}, (l.dropWhile p).head? = some c → p c = false := by
  intro l
  induction l with
  | nil =>
    intro c h
    simp [List.dropWhile] at h
  | cons a as ih =>
    intro c h
    by_cases ha : p a = true
    · rw [List.dropWhile_cons, if_pos ha] at h
      exact ih h
    · rw [List.dropWhile_cons, if_neg ha] at h
      simp only [List.head?_cons, Option.some.injEq] at h
      rw [← h]
      exact Bool.eq_false_iff.mpr ha

theorem getLast?_dropWhile (p : Char → Bool) (l : List Char)
    (h : l.dropWhile p ≠ []) : (l.dropWhile p).getLast? = l.getLast? := by
  obtain ⟨pre, hpre⟩ := List.dropWhile_suffix (l := l) p
  conv_rhs => rw [← hpre]
  rw [List.getLast?_append_of_ne_nil pre h]

theorem pyStrip_data (s : String) :
    (pyStrip s).data = ((s.data.dropWhile isWS).reverse.dropWhile isWS).reverse := rfl

theorem pyStrip_last_not_ws (s : String) {c : Char}
    (h : (pyStrip s).data.getLast? = some c) : isWS c = false := by
  rw [pyStrip_data, List.getLast?_reverse] at h
  exact head?_dropWhile_not isWS _ h

theorem pyStrip_head_not_ws (s : String) {c : Char}
    (h : (pyStrip s).data.head? = some c) : isWS c = false := by
  rw [pyStrip_data, List.head?_reverse] at h
  have hne : (s.data.dropWhile isWS).reverse.dropWhile isWS ≠ [] := by
    intro h0
    rw [h0] at h
    exact Option.noConfusion h
  rw [getLast?_dropWhile isWS _ hne, List.getLast?_reverse] at h
  exact head?_dropWhile_not isWS _ h

/-- C3. Selection serialization: the words are serialized in non-decreasing
`(page_index, center_y, center_x)` order; between consecutive words the
page-break marker appears exactly when the page index changed, a bare line
break exactly when the page is unchanged and the vertical center gap exceeds
15 px, a single space exactly when neither holds and the accumulated text
(equivalently, with non-empty fragments, its last fragment) does not already
end in a space or newline; the final result carries no leading or trailing
whitespace; and for words on page 3 (y-centers 100, 120) and page 4
(y-center 40) the page-break marker — not a line break — separates the two
pages' content. -/
theorem selection_serialization_order :
    (∀ l : List SelTuple, (sortSel l).Pairwise projLe) ∧
    (∀ (texts : List String) (lp : Nat) (ly : Int) (p : Nat) (y : Int),
      (sepFor texts (some (lp, ly)) p y = [pageMarker p] ↔ p ≠ lp) ∧
      (sepFor texts (some (lp, ly)) p y = ["\n"] ↔
        p = lp ∧ 15 < (y - ly).natAbs) ∧
      (sepFor texts (some (lp, ly)) p y = [" "] ↔
        p = lp ∧ (y - ly).natAbs ≤ 15 ∧
          ∃ t, texts.getLast? = some t ∧ endsWS t = false)) ∧
    (∀ texts : List String, (∀ t ∈ texts, t ≠ "") →
      (endsWS (joinAll texts) = true ↔
        ∃ t, texts.getLast? = some t ∧ endsWS t = true)) ∧
    (∀ (l : List SelTuple) (c : Char),
      ((extractSelectedText l).data.head? = some c → isWS c = false) ∧
      ((extractSelectedText l).data.getLast? = some c → isWS c = false)) ∧
    (extractSelectedText
        [⟨3, 100, 10, "alpha"⟩, ⟨4, 40, 10, "gamma"⟩, ⟨3, 120, 10, "beta"⟩] =
      "alpha\nbeta\n--- 第 5 页 ---\ngamma") := by
  refine ⟨?_, ?_, endsWS_joinAll, ?_, by decide⟩
  · intro l
    have hs := List.sorted_insertionSort pyTupleLe l
    refine List.Pairwise.imp (fun {a b} hab => ?_) hs
    unfold pyTupleLe at hab
    unfold projLe
    rcases hab with h | ⟨e, hab⟩
    · exact Or.inl h
    · refine Or.inr ⟨e, ?_⟩
      rcases hab with h | ⟨e2, hab⟩
      · exact Or.inl h
      · refine Or.inr ⟨e2, ?_⟩
        rcases hab with h | ⟨e3, _⟩
        · exact le_of_lt h
        · exact le_of_eq e3
  · intro texts lp ly p y
    exact ⟨sepFor_marker_iff texts lp ly p y, sepFor_newline_iff texts lp ly p y,
      sepFor_space_iff texts lp ly p y⟩
  · intro l c
    constructor
    · intro h
      unfold extractSelectedText at h
      by_cases hl : l = []
      · rw [if_pos hl] at h
        exact Option.noConfusion h
      · rw [if_neg hl] at h
        exact pyStrip_head_not_ws _ h
    · intro h
      unfold extractSelectedText at h
      by_cases hl : l = []
      · rw [if_pos hl] at h
        exact Option.noConfusion h
      · rw [if_neg hl] at h
        exact pyStrip_last_not_ws _ h

theorem selection_serialization_order_witness :
    (extractSelectedText
        [⟨3, 100, 10, "alpha"⟩, ⟨4, 40, 10, "gamma"⟩, ⟨3, 120, 10, "beta"⟩]).data.head?
      = some 'a' ∧
    isWS 'a' = false := by
  refine ⟨by decide, ?_⟩
  exact (selection_serialization_order.2.2.2.1
    [⟨3, 100, 10, "alpha"⟩, ⟨4, 40, 10, "gamma"⟩, ⟨3, 120, 10, "beta"⟩] 'a').1 (by decide)

theorem runMain_raster_none (b : Backend) (stopAt : Option Nat) (pg n : Nat) (pv : Bool)
    (hr : ¬ b.rasterOk = true) :
    (runMain b stopAt pg n pv).pageRendered = none := by
  simp only [runMain]
  rw [if_pos hr]

theorem runThread_fetch_none (b : Backend) (stopAt : Option Nat) (pg : Nat)
    (hf : ¬ b.fetchOk = true) :
    (runThread b stopAt pg).pageRendered = none := by
  simp only [runThread]
  by_cases h0 : pollAt stopAt 0 = true
  · rw [if_pos h0]
  · rw [if_neg h0, if_pos hf]

theorem runThread_raster_none (b : Backend) (stopAt : Option Nat) (pg : Nat)
    (hr : ¬ b.rasterOk = true) :
    (runThread b stopAt pg).pageRendered = none := by
  simp only [runThread]
  by_cases h0 : pollAt stopAt 0 = true
  · rw [if_pos h0]
  · rw [if_neg h0]
    by_cases hf : ¬ b.fetchOk = true
    · rw [if_pos hf]
    · rw [if_neg hf]
      by_cases h1 : pollAt stopAt 1 = true
      · rw [if_pos h1]
      · rw [if_neg h1]
        by_cases hq : b.highQuality = true
        · rw [if_pos hq]
          exact runMain_raster_none b stopAt pg 2 false hr
        · rw [if_neg hq]
          by_cases hpv : pollAt stopAt (renderPreviewRun b stopAt 2).1 = true
          · rw [if_pos hpv]
          · rw [if_neg hpv]
            exact runMain_raster_none b stopAt pg _ _ hr

theorem runMain_some_polls (b : Backend) (pg n : Nat) (pv : Bool) (s : Nat)
    (h : (runMain b (some s) pg n pv).pageRendered ≠ none) :
    (runMain b (some s) pg n pv).polls ≤ s := by
  simp only [runMain] at h ⊢
  by_cases h1 : ¬ b.rasterOk = true
  · rw [if_pos h1] at h
    exact absurd rfl h
  · rw [if_neg h1] at h ⊢
    by_cases h2 : pollAt (some s) n = true
    · rw [if_pos h2] at h
      exact absurd rfl h
    · rw [if_neg h2] at h ⊢
      by_cases h3 : ¬ b.convertOk = true
      · rw [if_pos h3] at h
        exact absurd rfl h
      · rw [if_neg h3] at h ⊢
        by_cases h4 : pollAt (some s) (n + 1) = true
        · rw [if_pos h4] at h
          exact absurd rfl h
        · rw [if_neg h4] at h ⊢
          by_cases h5 : pollAt (some s) (n + 2) = true
          · rw [if_pos h5] at h
            exact absurd rfl h
          · rw [if_neg h5] at h ⊢
            by_cases h6 : ¬ b.extractOk = true
            · rw [if_pos h6] at h
              exact absurd rfl h
            · rw [if_neg h6] at h ⊢
              by_cases h7 :
                  pollAt (some s) (extractWordsLoop (some s) pg (n + 3) b.words).1 = true
              · rw [if_pos h7] at h
                exact absurd rfl h
              · rw [if_neg h7] at h ⊢
                simp only [pollAt, decide_eq_true_eq] at h7
                show (extractWordsLoop (some s) pg (n + 3) b.words).1 + 1 ≤ s
                omega

theorem runThread_some_polls (b : Backend) (pg : Nat) (s : Nat)
    (h : (runThread b (some s) pg).pageRendered ≠ none) :
    (runThread b (some s) pg).polls ≤ s := by
  simp only [runThread] at h ⊢
  by_cases h0 : pollAt (some s) 0 = true
  · rw [if_pos h0] at h
    exact absurd rfl h
  · rw [if_neg h0] at h ⊢
    by_cases hf : ¬ b.fetchOk = true
    · rw [if_pos hf] at h
      exact absurd rfl h
    · rw [if_neg hf] at h ⊢
      by_cases h1 : pollAt (some s) 1 = true
      · rw [if_pos h1] at h
        exact absurd rfl h
      · rw [if_neg h1] at h ⊢
        by_cases hq : b.highQuality = true
        · rw [if_pos hq] at h ⊢
          exact runMain_some_polls b pg 2 false s h
        · rw [if_neg hq] at h ⊢
          by_cases hpv : pollAt (some s) (renderPreviewRun b (some s) 2).1 = true
          · rw [if_pos hpv] at h
            exact absurd rfl h
          · rw [if_neg hpv] at h ⊢
            exact runMain_some_polls b pg _ _ s h

/-- C7. Error and cancellation handling of a render task: when the page
fetch or the rasterize stage raises, or the cancel flag is set during the
run (before its last poll), no `page_rendered` result is emitted; with no
emission the cache is left untouched; and `_on_thread_finished`
unconditionally removes the page index from the pending set. -/
theorem render_failure_no_result :
    ∀ (b : Backend) (stopAt : Option Nat) (pg : Nat),
      ((¬ b.fetchOk = true ∨ ¬ b.rasterOk = true ∨
          (∃ s, stopAt = some s ∧ s < (runThread b stopAt pg).polls)) →
        (runThread b stopAt pg).pageRendered = none) ∧
      (∀ (c : PageCacheM) (pix w : Nat),
        (runThread b stopAt pg).pageRendered = none →
          applyRunResult c (runThread b stopAt pg) pg pix w = c) ∧
      (∀ (st : RenderMgr) (i : Nat), st.pending.Nodup →
        i ∉ (onThreadFinishedM st i).pending) := by
  intro b stopAt pg
  refine ⟨?_, ?_, ?_⟩
  · rintro (hf | hr | ⟨s, rfl, hs⟩)
    · exact runThread_fetch_none b stopAt pg hf
    · exact runThread_raster_none b stopAt pg hr
    · by_contra hne
      have := runThread_some_polls b pg s hne
      omega
  · intro c pix w h
    simp [applyRunResult, h]
  · intro st i hnd hmem
    exact ((hnd.mem_erase_iff).mp hmem).1 rfl

theorem render_failure_no_result_witness :
    (¬ (⟨false, true, true, true, true, true, []⟩ : Backend).fetchOk = true) ∧
    (runThread ⟨false, true, true, true, true, true, []⟩ none 3).pageRendered = none := by
  refine ⟨by decide, ?_⟩
  exact (render_failure_no_result ⟨false, true, true, true, true, true, []⟩ none 3).1
    (Or.inl (by decide))
